import Mathlib

/-!
Shallow embedding of the LLMQ DKG session-handler core of this repository:
the deterministic membership / connectivity planner of
`src/llmq/quorums_utils.cpp`, the pending-message buffers and phase enum of
`llmq/quorums_dkgsessionhandler.h`, together with theorems settling the
specified properties.

Modelling conventions:
  * 256-bit hashes (`uint256`) are modelled as `Nat`; the `<` comparison on
    `uint256` is a total order and is modelled by `Nat.lt`.
  * `::SerializeHash` applied to tuples is modelled by abstract function
    parameters (one per arity/shape), since the hash is an external collaborator.
  * `std::set<uint256>` becomes `Finset Nat`; C++ iteration order is
    irrelevant for set results.
  * External collaborators (spork manager, masternode registry, connection
    manager, clocks) become explicit arguments.
-/

namespace llmq

/-- `EvalSpork` from `quorums_utils.cpp`: a spork value of `0` enables the
feature for every quorum type, `1` enables it for all types except the two
large (400-member) quorum types, anything else disables it.  The numeric
identifiers of the two large types are parameters (`Consensus::LLMQ_400_60`,
`Consensus::LLMQ_400_85` live outside the given sources). -/
def EvalSpork (llmq40060 llmq40085 : Nat) (llmqType : Nat) (sporkValue : Int) : Bool :=
  if sporkValue = 0 then true
  else if sporkValue = 1 ∧ llmqType ≠ llmq40060 ∧ llmqType ≠ llmq40085 then true
  else false

/-- `CLLMQUtils::IsAllMembersConnectedEnabled`: evaluates spork
`SPORK_21_QUORUM_ALL_CONNECTED` (its current value passed as `spork21Value`)
for the quorum type. -/
def IsAllMembersConnectedEnabled (llmq40060 llmq40085 llmqType : Nat) (spork21Value : Int) : Bool :=
  EvalSpork llmq40060 llmq40085 llmqType spork21Value

/-- `CLLMQUtils::IsQuorumPoseEnabled`: evaluates spork
`SPORK_23_QUORUM_POSE` (its current value passed as `spork23Value`) for the
quorum type. -/
def IsQuorumPoseEnabled (llmq40060 llmq40085 llmqType : Nat) (spork23Value : Int) : Bool :=
  EvalSpork llmq40060 llmq40085 llmqType spork23Value

/-- `CLLMQUtils::DeterministicOutboundConnection`.  `H lo hi x` models
`::SerializeHash(std::make_tuple(lo, hi, x))`.  Returns the proTxHash with the
lowest value of `H(min, max, ·)` among the two, the first one on a tie. -/
def DeterministicOutboundConnection (H : Nat → Nat → Nat → Nat)
    (proTxHash1 proTxHash2 : Nat) : Nat :=
  if proTxHash1 < proTxHash2 then
    let h1 := H proTxHash1 proTxHash2 proTxHash1
    let h2 := H proTxHash1 proTxHash2 proTxHash2
    if h1 < h2 then proTxHash1 else proTxHash2
  else
    let h1 := H proTxHash2 proTxHash1 proTxHash1
    let h2 := H proTxHash2 proTxHash1 proTxHash2
    if h1 < h2 then proTxHash1 else proTxHash2

/-- The loop body of `calcOutbound` inside
`CLLMQUtils::GetQuorumRelayMembers`: starting from `gap = 1`,
`gapMax = n - 1`, `k = 0`, it first halves `gapMax` and iterates while the
halved value is nonzero or `k ≤ 1`; each iteration inserts the member at
index `(i + gap) % n` unless that member is `proTxHash` itself, then doubles
`gap` and increments `k`. -/
def calcOutboundLoop (mns : List Nat) (i proTxHash : Nat) :
    Nat → Nat → Nat → Finset Nat → Finset Nat
  | gap, gapMax, k, r =>
    if h : gapMax / 2 ≠ 0 ∨ k ≤ 1 then
      let idx := (i + gap) % mns.length
      let otherDmn := mns.getD idx 0
      calcOutboundLoop mns i proTxHash (gap * 2) (gapMax / 2) (k + 1)
        (if otherDmn = proTxHash then r else insert otherDmn r)
    else r
termination_by gap gapMax k => (gapMax, 2 - k)
decreasing_by
  rcases Nat.eq_zero_or_pos gapMax with h0 | h0
  · subst h0
    apply Prod.Lex.right
    rcases h with h | h
    · exact absurd rfl h
    · omega
  · exact Prod.Lex.left _ _ (Nat.div_lt_self h0 (by omega))

/-- The `calcOutbound` lambda of `CLLMQUtils::GetQuorumRelayMembers`,
computing the ring-relay set for the member `proTxHash` sitting at index `i`. -/
def calcOutbound (mns : List Nat) (i proTxHash : Nat) : Finset Nat :=
  calcOutboundLoop mns i proTxHash 1 (mns.length - 1) 0 ∅

/-- `CLLMQUtils::GetQuorumRelayMembers`: the outbound ring-relay set of
`forMember`, plus (when `onlyOutbound = false`) every member whose own
outbound ring-relay set contains `forMember`.  The member list `mns` is the
result of `GetAllQuorumMembers`; members are identified by proTxHash. -/
def GetQuorumRelayMembers (mns : List Nat) (forMember : Nat) (onlyOutbound : Bool) :
    Finset Nat :=
  (List.range mns.length).foldl
    (fun result i =>
      let dmn := mns.getD i 0
      if dmn = forMember then
        result ∪ calcOutbound mns i dmn
      else if onlyOutbound = false then
        (if forMember ∈ calcOutbound mns i dmn then insert dmn result else result)
      else result)
    ∅

/-- `CLLMQUtils::GetQuorumConnections`.  In all-connected mode (spork 21
active for the type) every other member is considered; with
`onlyOutbound = true` only those for which `DeterministicOutboundConnection`
picks the other member are kept.  Otherwise the ring-relay set is returned. -/
def GetQuorumConnections (H : Nat → Nat → Nat → Nat)
    (llmq40060 llmq40085 llmqType : Nat) (spork21Value : Int)
    (mns : List Nat) (forMember : Nat) (onlyOutbound : Bool) : Finset Nat :=
  if IsAllMembersConnectedEnabled llmq40060 llmq40085 llmqType spork21Value then
    (mns.filter (fun dmn =>
      dmn != forMember &&
        (!onlyOutbound || DeterministicOutboundConnection H forMember dmn == dmn))).toFinset
  else
    GetQuorumRelayMembers mns forMember onlyOutbound

/-- The loop of `CLLMQUtils::CalcDeterministicWatchConnections`:
`H2 rnd t bh` models `::SerializeHash(std::make_pair(rnd, std::make_pair(llmqType, blockHash)))`,
`rnd % 2 ^ 64` models `uint256::GetUint64(0)` (the low 64 bits). -/
def calcWatchLoop (H2 : Nat → Nat → Nat → Nat) (llmqType blockHash memberCount : Nat) :
    Nat → Nat → Finset Nat → Finset Nat
  | _, 0, result => result
  | rnd, c + 1, result =>
    let rnd2 := H2 rnd llmqType blockHash
    calcWatchLoop H2 llmqType blockHash memberCount rnd2 c
      (insert (rnd2 % 2 ^ 64 % memberCount) result)

/-- `CLLMQUtils::CalcDeterministicWatchConnections`: starting from the
process-wide random seed, iterate the hash `connectionCount` times, reducing
the low 64 bits of each value modulo `memberCount` to a member index. -/
def CalcDeterministicWatchConnections (H2 : Nat → Nat → Nat → Nat)
    (qwatchConnectionSeed llmqType blockHash memberCount connectionCount : Nat) :
    Finset Nat :=
  calcWatchLoop H2 llmqType blockHash memberCount qwatchConnectionSeed connectionCount ∅

/-- `CLLMQUtils::AddQuorumProbeConnections`: when spork
`SPORK_23_QUORUM_POSE` is inactive for the type, nothing is scheduled;
otherwise every member other than the local node whose last successful
outbound connection (`mmetaman` metadata, passed as `lastOutboundSuccess`)
is more than `10 * 60` seconds old gets a probe connection. -/
def AddQuorumProbeConnections (llmq40060 llmq40085 llmqType : Nat) (spork23Value : Int)
    (members : List Nat) (myProTxHash : Nat) (curTime : Int)
    (lastOutboundSuccess : Nat → Int) : Finset Nat :=
  if IsQuorumPoseEnabled llmq40060 llmq40085 llmqType spork23Value = false then ∅
  else
    (members.filter (fun dmn =>
      dmn != myProTxHash && decide (curTime - lastOutboundSuccess dmn > 10 * 60))).toFinset

/-- The `insert` of the per-type `unordered_lru_cache` used by
`CLLMQUtils::GetAllQuorumMembers`: the new entry becomes the freshest one and
the oldest entries beyond `maxSize` are evicted. -/
def lruInsert (maxSize : Nat) (key : Nat) (val : List Nat)
    (cache : List (Nat × List Nat)) : List (Nat × List Nat) :=
  ((key, val) :: cache).take maxSize

/-- `CLLMQUtils::GetAllQuorumMembers`.  External collaborators become
parameters: `getListForBlock` is the registry snapshot keyed by the base
block hash, `calculateQuorum mnList size modifier` is
`CDeterministicMNList::CalculateQuorum`, `serializeHashPair t h` is
`::SerializeHash(std::make_pair(llmqType, blockHash))`, and `sizeForType`
gives `llmqParams.size` for the type.  The per-type LRU cache
`mapQuorumMembers` is threaded explicitly as `cache`; the pair returned is
(member list, updated cache). -/
def GetAllQuorumMembers
    (getListForBlock : Nat → List Nat)
    (calculateQuorum : List Nat → Nat → Nat → List Nat)
    (serializeHashPair : Nat → Nat → Nat)
    (sizeForType : Nat → Nat)
    (maxCacheSize : Nat)
    (llmqType blockHash : Nat)
    (cache : Nat → List (Nat × List Nat)) :
    List Nat × (Nat → List (Nat × List Nat)) :=
  match (cache llmqType).lookup blockHash with
  | some quorumMembers => (quorumMembers, cache)
  | none =>
    let allMns := getListForBlock blockHash
    let modifier := serializeHashPair llmqType blockHash
    let quorumMembers := calculateQuorum allMns (sizeForType llmqType) modifier
    (quorumMembers,
      fun t =>
        if t = llmqType then lruInsert maxCacheSize blockHash quorumMembers (cache t)
        else cache t)

/-- The member list `GetAllQuorumMembers` is specified to compute for a
`(type, base block hash)` pair: the registry snapshot at the base block,
scored with the modifier `H(type ‖ blockHash)` and truncated to the type's
size, independent of any cache state. -/
def quorumMembersSpec
    (getListForBlock : Nat → List Nat)
    (calculateQuorum : List Nat → Nat → Nat → List Nat)
    (serializeHashPair : Nat → Nat → Nat)
    (sizeForType : Nat → Nat)
    (llmqType blockHash : Nat) : List Nat :=
  calculateQuorum (getListForBlock blockHash) (sizeForType llmqType)
    (serializeHashPair llmqType blockHash)

/-- A cache state is good when every entry stored for a `(type, hash)` key is
the specified member list for that key. -/
def goodCache
    (getListForBlock : Nat → List Nat)
    (calculateQuorum : List Nat → Nat → Nat → List Nat)
    (serializeHashPair : Nat → Nat → Nat)
    (sizeForType : Nat → Nat)
    (cache : Nat → List (Nat × List Nat)) : Prop :=
  ∀ t h l, (h, l) ∈ cache t →
    l = quorumMembersSpec getListForBlock calculateQuorum serializeHashPair sizeForType t h

/-- `QuorumPhase` from `llmq/quorums_dkgsessionhandler.h`, with the enum
values assigned there (`None = -1`, `Initialized = 1`, …, `Idle = 7`). -/
inductive QuorumPhase where
  | None
  | Initialized
  | Contribute
  | Complain
  | Justify
  | Commit
  | Finalize
  | Idle
deriving DecidableEq, Repr

/-- The numeric value each `QuorumPhase` constructor carries in the source
enum. -/
def QuorumPhase.toInt : QuorumPhase → Int
  | .None => -1
  | .Initialized => 1
  | .Contribute => 2
  | .Complain => 3
  | .Justify => 4
  | .Commit => 5
  | .Finalize => 6
  | .Idle => 7

/-- Modelled from the spec: the externally observable phase transition of the
DKG scheduler (`CDKGSessionHandler::HandleDKGRound`, whose implementation is
absent from the given sources; only the header is present).  The spec orders
one session as
`Idle → Initialized → Contribute → Complain → Justify → Commit → Finalize → Idle`;
`None` is the pre-construction value and never advances. -/
def phaseStep : QuorumPhase → QuorumPhase
  | .Idle => .Initialized
  | .Initialized => .Contribute
  | .Contribute => .Complain
  | .Complain => .Justify
  | .Justify => .Commit
  | .Commit => .Finalize
  | .Finalize => .Idle
  | .None => .None

/-- The sequence of phases one session passes through, obtained by iterating
`phaseStep` from `Initialized` (the value `InitNewQuorum` installs) up to the
return to `Idle`. -/
def sessionPhases : List QuorumPhase :=
  (List.range 7).map (fun k => phaseStep^[k] QuorumPhase.Initialized)

/-- Modelled from the spec: the state of one `CDKGPendingMessages` buffer
(`llmq/quorums_dkgsessionhandler.h` declares the class and its fields;
the member-function bodies are absent from the given sources, so their
behaviour follows the spec's `push`/`pop`/`clear`/`has_seen` contract).
Message bytes and digests are modelled as `Nat`, node ids as `Nat`, and the
`messagesPerNode` map as a total function defaulting to zero. -/
structure CDKGPendingMessages where
  maxMessagesPerNode : Nat
  pendingMessages : List (Nat × Nat)
  messagesPerNode : Nat → Nat
  seenMessages : Finset Nat

/-- A freshly constructed buffer: empty queue, zero counters, empty seen set. -/
def mkPendingMessages (maxPerNode : Nat) : CDKGPendingMessages :=
  ⟨maxPerNode, [], fun _ => 0, ∅⟩

/-- Modelled from the spec: `CDKGPendingMessages::PushPendingMessage`.
Silently discard when the sender is at its admission cap; otherwise hash the
bytes (`H`), discard duplicates, and else append the message, bump the
sender's counter and record the digest. -/
def PushPendingMessage (H : Nat → Nat) (nodeId bytes : Nat)
    (self : CDKGPendingMessages) : CDKGPendingMessages :=
  if self.maxMessagesPerNode ≤ self.messagesPerNode nodeId then self
  else
    let h := H bytes
    if h ∈ self.seenMessages then self
    else
      { self with
        pendingMessages := self.pendingMessages ++ [(nodeId, bytes)]
        messagesPerNode := fun p =>
          if p = nodeId then self.messagesPerNode p + 1 else self.messagesPerNode p
        seenMessages := insert h self.seenMessages }

/-- Modelled from the spec: `CDKGPendingMessages::PopPendingMessages`.
Returns up to `maxCount` messages in FIFO order, removes them from the queue
and decrements the senders' counters; `seenMessages` is untouched. -/
def PopPendingMessages (maxCount : Nat) (self : CDKGPendingMessages) :
    List (Nat × Nat) × CDKGPendingMessages :=
  let popped := self.pendingMessages.take maxCount
  (popped,
    { self with
      pendingMessages := self.pendingMessages.drop maxCount
      messagesPerNode := fun p =>
        self.messagesPerNode p - popped.countP (fun m => m.1 == p) })

/-- Modelled from the spec: `CDKGPendingMessages::HasSeen`. -/
def HasSeen (self : CDKGPendingMessages) (h : Nat) : Bool :=
  decide (h ∈ self.seenMessages)

/-- Modelled from the spec: `CDKGPendingMessages::Clear` empties the queue,
the counters and the seen set. -/
def ClearPendingMessages (self : CDKGPendingMessages) : CDKGPendingMessages :=
  { self with
    pendingMessages := []
    messagesPerNode := fun _ => 0
    seenMessages := ∅ }

/-- Applying a list of `(nodeId, bytes)` pushes in order. -/
def applyPushes (H : Nat → Nat) (ops : List (Nat × Nat))
    (self : CDKGPendingMessages) : CDKGPendingMessages :=
  ops.foldl (fun s op => PushPendingMessage H op.1 op.2 s) self

/-- An operation on a pending buffer other than `clear`. -/
inductive BufOp where
  | pushMsg (nodeId bytes : Nat)
  | popMsgs (maxCount : Nat)

/-- One buffer operation. -/
def applyBufOp (H : Nat → Nat) (self : CDKGPendingMessages) : BufOp → CDKGPendingMessages
  | .pushMsg nodeId bytes => PushPendingMessage H nodeId bytes self
  | .popMsgs maxCount => (PopPendingMessages maxCount self).2

/-- A sequence of buffer operations. -/
def applyBufOps (H : Nat → Nat) (ops : List BufOp)
    (self : CDKGPendingMessages) : CDKGPendingMessages :=
  ops.foldl (applyBufOp H) self

/-- The member at ring offset `g` from index `i` in the member list. -/
def outElem (mns : List Nat) (i g : Nat) : Nat :=
  mns.getD ((i + g) % mns.length) 0

/-- The number of iterations `calcOutboundLoop` performs from a state with
the given `gapMax` and `k`: the loop runs while the successively halved
`gapMax` stays nonzero or while `k ≤ 1`. -/
def outCount (gapMax k : Nat) : Nat :=
  max (Nat.log2 gapMax) (2 - k)

/-- Closed form of the set `calcOutboundLoop` adds to its accumulator from a
state with the given `gap`, `gapMax` and `k`: the members at offsets
`gap * 2 ^ j` for each remaining iteration `j`, the member `proTxHash` itself
excluded. -/
def outSet (mns : List Nat) (i proTxHash gap gapMax k : Nat) : Finset Nat :=
  ((Finset.range (outCount gapMax k)).filter
    (fun j => outElem mns i (gap * 2 ^ j) ≠ proTxHash)).image
    (fun j => outElem mns i (gap * 2 ^ j))

/-- A concrete injective-on-small-inputs stand-in for the triple serialize
hash, used to instantiate abstract hash parameters on concrete inputs. -/
def hashTriple : Nat → Nat → Nat → Nat :=
  fun a b c => a * 1000000 + b * 1000 + c

/-- A concrete stand-in for the byte-string digest `H(bytes)`. -/
def hashBytes : Nat → Nat :=
  fun b => b + 1

/-! ## Theorems -/

/-- Every index the watch-connection loop inserts is either already in the
accumulator or a residue modulo a positive `memberCount`. -/
lemma mem_calcWatchLoop (H2 : Nat → Nat → Nat → Nat) (t bh n : Nat) (hn : 0 < n) :
    ∀ (count rnd : Nat) (acc : Finset Nat) (idx : Nat),
      idx ∈ calcWatchLoop H2 t bh n rnd count acc → idx ∈ acc ∨ idx < n := by
  intro count
  induction count with
  | zero => intro rnd acc idx h; exact Or.inl h
  | succ c ih =>
    intro rnd acc idx h
    rw [calcWatchLoop] at h
    rcases ih _ _ _ h with h2 | h2
    · rcases Finset.mem_insert.mp h2 with h3 | h3
      · exact Or.inr (h3 ▸ Nat.mod_lt _ hn)
      · exact Or.inl h3
    · exact Or.inr h2

/-- C7: with `connectionCount = 1` and a nonempty member list, the
deterministic watch-connection computation returns the single index obtained
by hashing the seed with `(type, blockHash)` once and reducing the low 64
bits modulo the member count; the set has exactly one element, that element
is a valid index, and it is a function of the seed, type and base block hash
only. -/
theorem watch_connections_single (H2 : Nat → Nat → Nat → Nat)
    (seed llmqType blockHash n : Nat) (hn : 1 ≤ n) :
    CalcDeterministicWatchConnections H2 seed llmqType blockHash n 1 =
      {H2 seed llmqType blockHash % 2 ^ 64 % n} ∧
    (CalcDeterministicWatchConnections H2 seed llmqType blockHash n 1).card = 1 ∧
    H2 seed llmqType blockHash % 2 ^ 64 % n < n := by
  have h1 : CalcDeterministicWatchConnections H2 seed llmqType blockHash n 1 =
      {H2 seed llmqType blockHash % 2 ^ 64 % n} := by
    unfold CalcDeterministicWatchConnections
    rw [calcWatchLoop, calcWatchLoop]
    simp
  exact ⟨h1, by rw [h1]; exact Finset.card_singleton _, Nat.mod_lt _ (by omega)⟩

/-- Witness for `watch_connections_single` at a concrete hash function, seed
and member count. -/
theorem watch_connections_single_witness :
    CalcDeterministicWatchConnections hashTriple 5 1 2 3 1 =
      {hashTriple 5 1 2 % 2 ^ 64 % 3} ∧
    (CalcDeterministicWatchConnections hashTriple 5 1 2 3 1).card = 1 ∧
    hashTriple 5 1 2 % 2 ^ 64 % 3 < 3 :=
  watch_connections_single hashTriple 5 1 2 3 (by decide)

/-- C10: every index produced by `CalcDeterministicWatchConnections` is the
low 64 bits of a hash reduced modulo `memberCount`; provided
`memberCount ≥ 1` the reduction is well defined and the result is strictly
below `memberCount`, for any connection count. -/
theorem watch_connections_in_range (H2 : Nat → Nat → Nat → Nat)
    (seed llmqType blockHash memberCount connectionCount idx : Nat)
    (hn : 1 ≤ memberCount)
    (hidx : idx ∈ CalcDeterministicWatchConnections H2 seed llmqType blockHash
      memberCount connectionCount) :
    idx < memberCount := by
  rcases mem_calcWatchLoop H2 llmqType blockHash memberCount (by omega)
      connectionCount seed ∅ idx hidx with h | h
  · exact absurd h (Finset.not_mem_empty idx)
  · exact h

/-- Witness for `watch_connections_in_range`: a two-connection walk over a
three-member quorum, checked at a concrete produced index. -/
theorem watch_connections_in_range_witness : (0 : Nat) < 3 :=
  watch_connections_in_range hashTriple 1 2 3 3 2 0 (by decide) (by decide)

/-- C8: a member is scheduled for a probe connection exactly when the
`QUORUM_POSE` spork is active for the quorum type, the member is in the
quorum, it is not the local masternode, and its last successful outbound
connection is more than `10 * 60` seconds old; with the spork inactive
nothing at all is scheduled. -/
theorem probe_connections_spec (llmq40060 llmq40085 llmqType : Nat) (spork23Value : Int)
    (members : List Nat) (myProTxHash m : Nat) (curTime : Int)
    (lastOutboundSuccess : Nat → Int) :
    m ∈ AddQuorumProbeConnections llmq40060 llmq40085 llmqType spork23Value
        members myProTxHash curTime lastOutboundSuccess ↔
      IsQuorumPoseEnabled llmq40060 llmq40085 llmqType spork23Value = true ∧
        m ∈ members ∧ m ≠ myProTxHash ∧
        curTime - lastOutboundSuccess m > 600 := by
  unfold AddQuorumProbeConnections
  by_cases hen : IsQuorumPoseEnabled llmq40060 llmq40085 llmqType spork23Value
  · rw [if_neg (by simp [hen])]
    simp only [List.mem_toFinset, List.mem_filter, Bool.and_eq_true, bne_iff_ne,
      decide_eq_true_eq, hen, true_and, ne_eq]
    constructor
    · rintro ⟨h1, h2, h3⟩; exact ⟨h1, h2, by norm_num at h3 ⊢; omega⟩
    · rintro ⟨h1, h2, h3⟩; exact ⟨h1, h2, by norm_num at h3 ⊢; omega⟩
  · rw [if_pos (by simpa using hen)]
    simp only [Finset.not_mem_empty, false_iff, not_and]
    intro h; exact absurd h hen

/-- C9 (step relation modelled from the spec; the handler implementation is
absent from the given sources): iterating the scheduler's phase step from
`Initialized` traverses exactly
`Initialized, Contribute, Complain, Justify, Commit, Finalize, Idle`, the
source enum value `QuorumPhase.toInt` strictly increases along that whole
session trace (so no externally observable transition within one session
goes backwards), and only the session boundary `Idle → Initialized` restarts
the cycle. -/
theorem phase_monotonic :
    sessionPhases = [QuorumPhase.Initialized, QuorumPhase.Contribute,
      QuorumPhase.Complain, QuorumPhase.Justify, QuorumPhase.Commit,
      QuorumPhase.Finalize, QuorumPhase.Idle] ∧
    List.Pairwise (fun a b => a.toInt < b.toInt) sessionPhases ∧
    phaseStep QuorumPhase.Idle = QuorumPhase.Initialized := by
  refine ⟨by decide, by decide, rfl⟩

/-- `DeterministicOutboundConnection` always returns one of its two
arguments. -/
lemma doc_choice (H : Nat → Nat → Nat → Nat) (a b : Nat) :
    DeterministicOutboundConnection H a b = a ∨
      DeterministicOutboundConnection H a b = b := by
  unfold DeterministicOutboundConnection
  dsimp only
  split_ifs <;> first | exact Or.inl rfl | exact Or.inr rfl

/-- `DeterministicOutboundConnection` does not depend on the argument order,
provided the two tie-break hashes of the pair differ. -/
lemma doc_symm (H : Nat → Nat → Nat → Nat) (a b : Nat) (hab : a ≠ b)
    (hcoll : H (min a b) (max a b) a ≠ H (min a b) (max a b) b) :
    DeterministicOutboundConnection H a b = DeterministicOutboundConnection H b a := by
  unfold DeterministicOutboundConnection
  rcases Nat.lt_or_gt_of_ne hab with h | h
  · rw [min_eq_left h.le, max_eq_right h.le] at hcoll
    rw [if_pos h, if_neg (by omega : ¬ b < a)]
    by_cases h12 : H a b a < H a b b
    · rw [if_pos h12, if_neg (by omega : ¬ H a b b < H a b a)]
    · rw [if_neg h12, if_pos (by omega : H a b b < H a b a)]
  · rw [min_eq_right h.le, max_eq_left h.le] at hcoll
    rw [if_neg (by omega : ¬ a < b), if_pos h]
    by_cases h12 : H b a a < H b a b
    · rw [if_pos h12, if_neg (by omega : ¬ H b a b < H b a a)]
    · rw [if_neg h12, if_pos (by omega : H b a b < H b a a)]

/-- `DeterministicOutboundConnection` picks its second argument exactly when
the second argument's tie-break hash is not smaller than the first's. -/
lemma doc_eq_second_iff (H : Nat → Nat → Nat → Nat) (a b : Nat) (hab : a ≠ b) :
    DeterministicOutboundConnection H a b = b ↔
      ¬ (H (min a b) (max a b) a < H (min a b) (max a b) b) := by
  unfold DeterministicOutboundConnection
  rcases Nat.lt_or_gt_of_ne hab with h | h
  · rw [min_eq_left h.le, max_eq_right h.le, if_pos h]
    by_cases h12 : H a b a < H a b b
    · rw [if_pos h12]; exact iff_of_false hab (by omega)
    · rw [if_neg h12]; exact iff_of_true rfl h12
  · rw [min_eq_right h.le, max_eq_left h.le, if_neg (by omega : ¬ a < b)]
    by_cases h12 : H b a a < H b a b
    · rw [if_pos h12]; exact iff_of_false hab (by omega)
    · rw [if_neg h12]; exact iff_of_true rfl h12

/-- Membership in the all-connected outbound set: every other member for
which `DeterministicOutboundConnection` picks that other member. -/
lemma mem_quorumConnections (H : Nat → Nat → Nat → Nat)
    (llmq40060 llmq40085 llmqType : Nat) (spork21Value : Int)
    (mns : List Nat) (forMember d : Nat)
    (hac : IsAllMembersConnectedEnabled llmq40060 llmq40085 llmqType spork21Value = true) :
    d ∈ GetQuorumConnections H llmq40060 llmq40085 llmqType spork21Value mns forMember true ↔
      d ∈ mns ∧ d ≠ forMember ∧
        DeterministicOutboundConnection H forMember d = d := by
  unfold GetQuorumConnections
  rw [if_pos hac]
  simp only [List.mem_toFinset, List.mem_filter, Bool.and_eq_true, bne_iff_ne,
    Bool.not_true, Bool.false_or, beq_iff_eq, ne_eq, and_assoc]

/-- C1: in all-connected mode, for distinct members `a` and `b` of the
quorum, exactly one of the two lists the other in its outbound-initiator
set: `b` is in `a`'s outbound set precisely when `a` is not in `b`'s.  The
tie-break hashes of the pair are assumed to differ (they are distinct
serialize-hash inputs; a SHA256 collision is the only way for them to
coincide). -/
theorem allconnected_symmetric (H : Nat → Nat → Nat → Nat)
    (llmq40060 llmq40085 llmqType : Nat) (spork21Value : Int)
    (mns : List Nat) (a b : Nat)
    (hac : IsAllMembersConnectedEnabled llmq40060 llmq40085 llmqType spork21Value = true)
    (ha : a ∈ mns) (hb : b ∈ mns) (hab : a ≠ b)
    (hcoll : H (min a b) (max a b) a ≠ H (min a b) (max a b) b) :
    (b ∈ GetQuorumConnections H llmq40060 llmq40085 llmqType spork21Value mns a true ↔
      ¬ a ∈ GetQuorumConnections H llmq40060 llmq40085 llmqType spork21Value mns b true) := by
  rw [mem_quorumConnections H llmq40060 llmq40085 llmqType spork21Value mns a b hac,
    mem_quorumConnections H llmq40060 llmq40085 llmqType spork21Value mns b a hac]
  have hsym := doc_symm H a b hab hcoll
  constructor
  · rintro ⟨-, -, hd⟩ ⟨-, -, hd2⟩
    exact hab (hd.symm.trans (hsym.trans hd2)).symm
  · intro hna
    refine ⟨hb, Ne.symm hab, ?_⟩
    rcases doc_choice H b a with h | h
    · exact hsym.trans h
    · exact absurd ⟨ha, hab, h⟩ hna

/-- Witness for `allconnected_symmetric` on a concrete two-member quorum with
the concrete hash `hashTriple` and spork value `0` (all-connected active). -/
theorem allconnected_symmetric_witness :
    (2 ∈ GetQuorumConnections hashTriple 2 3 1 0 [1, 2] 1 true ↔
      ¬ 1 ∈ GetQuorumConnections hashTriple 2 3 1 0 [1, 2] 2 true) :=
  allconnected_symmetric hashTriple 2 3 1 0 [1, 2] 1 2 (by decide) (by decide)
    (by decide) (by decide) (by decide)

/-- C2 as stated is false on the code: with hashes `h_x = H(lo ‖ hi ‖ x)` the
code adds `b` to `a`'s outbound set when `DeterministicOutboundConnection`
returns `b`, which happens when `h_a < h_b` fails, not when it holds.  At the
concrete two-member quorum `[1, 2]` with hash `hashTriple`,
`h_1 = hashTriple 1 2 1 < hashTriple 1 2 2 = h_2`, yet `2` is not in `1`'s
outbound set. -/
theorem outbound_direction_counterexample :
    ¬ (2 ∈ GetQuorumConnections hashTriple 2 3 1 0 [1, 2] 1 true ↔
        hashTriple (min 1 2) (max 1 2) 1 < hashTriple (min 1 2) (max 1 2) 2) := by
  decide

/-- C2 corrected: in all-connected mode, `a`'s outbound set contains the
member `b` exactly when `h_a < h_b` fails, i.e. when `b`'s tie-break hash is
at most `a`'s; the peer whose hash is larger is the one that initiates the
outbound connection towards the smaller-hash peer returned by
`DeterministicOutboundConnection`. -/
theorem outbound_direction_amended (H : Nat → Nat → Nat → Nat)
    (llmq40060 llmq40085 llmqType : Nat) (spork21Value : Int)
    (mns : List Nat) (a b : Nat)
    (hac : IsAllMembersConnectedEnabled llmq40060 llmq40085 llmqType spork21Value = true)
    (hb : b ∈ mns) (hab : a ≠ b) :
    (b ∈ GetQuorumConnections H llmq40060 llmq40085 llmqType spork21Value mns a true ↔
      ¬ (H (min a b) (max a b) a < H (min a b) (max a b) b)) := by
  rw [mem_quorumConnections H llmq40060 llmq40085 llmqType spork21Value mns a b hac]
  rw [← doc_eq_second_iff H a b hab]
  constructor
  · rintro ⟨-, -, hd⟩; exact hd
  · intro hd; exact ⟨hb, Ne.symm hab, hd⟩

/-- Witness for `outbound_direction_amended`: on the quorum `[1, 2]` with
hash `hashTriple`, member `2` has the larger tie-break hash and so lists `1`
in its outbound set. -/
theorem outbound_direction_amended_witness :
    (1 ∈ GetQuorumConnections hashTriple 2 3 1 0 [1, 2] 2 true ↔
      ¬ (hashTriple (min 2 1) (max 2 1) 2 < hashTriple (min 2 1) (max 2 1) 1)) :=
  outbound_direction_amended hashTriple 2 3 1 0 [1, 2] 2 1 (by decide) (by decide)
    (by decide)

/-- Pushing never changes the admission cap. -/
lemma push_max_eq (H : Nat → Nat) (nodeId bytes : Nat) (s : CDKGPendingMessages) :
    (PushPendingMessage H nodeId bytes s).maxMessagesPerNode = s.maxMessagesPerNode := by
  unfold PushPendingMessage
  dsimp only
  split_ifs <;> rfl

/-- Pushing preserves the per-peer quota invariant. -/
lemma push_quota (H : Nat → Nat) (nodeId bytes : Nat) (s : CDKGPendingMessages)
    (hq : ∀ q, s.messagesPerNode q ≤ s.maxMessagesPerNode) :
    ∀ q, (PushPendingMessage H nodeId bytes s).messagesPerNode q ≤
      (PushPendingMessage H nodeId bytes s).maxMessagesPerNode := by
  intro q
  rw [push_max_eq]
  unfold PushPendingMessage
  dsimp only
  split_ifs with h1 h2
  · exact hq q
  · exact hq q
  · dsimp only
    by_cases hqn : q = nodeId
    · subst hqn
      rw [if_pos rfl]
      have := hq q
      omega
    · rw [if_neg hqn]
      exact hq q

/-- The quota invariant holds along any sequence of pushes. -/
lemma pushes_quota (H : Nat → Nat) (ops : List (Nat × Nat)) :
    ∀ (s : CDKGPendingMessages),
      (∀ q, s.messagesPerNode q ≤ s.maxMessagesPerNode) →
      ∀ q, (applyPushes H ops s).messagesPerNode q ≤
        (applyPushes H ops s).maxMessagesPerNode := by
  induction ops with
  | nil => intro s hq q; exact hq q
  | cons op tl ih =>
    intro s hq q
    exact ih (PushPendingMessage H op.1 op.2 s) (push_quota H op.1 op.2 s hq) q

/-- C5 (buffer behaviour modelled from the spec; the member-function bodies
are absent from the given sources): after any sequence of pushes into a
fresh buffer, every peer's counter is at most `maxMessagesPerNode`, and a
push from a peer already at the cap is silently discarded — the queue, the
counters and the seen set are all left unchanged. -/
theorem pending_quota_invariant (H : Nat → Nat) (maxPerNode : Nat)
    (ops : List (Nat × Nat)) (st : CDKGPendingMessages)
    (hst : st = applyPushes H ops (mkPendingMessages maxPerNode))
    (p nodeId bytes : Nat)
    (hcap : st.maxMessagesPerNode ≤ st.messagesPerNode nodeId) :
    st.messagesPerNode p ≤ st.maxMessagesPerNode ∧
      PushPendingMessage H nodeId bytes st = st := by
  constructor
  · subst hst
    exact pushes_quota H ops (mkPendingMessages maxPerNode) (fun q => Nat.zero_le _) p
  · unfold PushPendingMessage
    rw [if_pos hcap]

/-- Witness for `pending_quota_invariant`: with a cap of one message per
peer, after peer `7` has pushed once it is at the cap and a second push is
discarded. -/
theorem pending_quota_invariant_witness :
    (applyPushes hashBytes [(7, 100)] (mkPendingMessages 1)).messagesPerNode 5 ≤
      (applyPushes hashBytes [(7, 100)] (mkPendingMessages 1)).maxMessagesPerNode ∧
    PushPendingMessage hashBytes 7 200
        (applyPushes hashBytes [(7, 100)] (mkPendingMessages 1)) =
      applyPushes hashBytes [(7, 100)] (mkPendingMessages 1) :=
  pending_quota_invariant hashBytes 1 [(7, 100)]
    (applyPushes hashBytes [(7, 100)] (mkPendingMessages 1)) rfl 5 7 200 (by decide)

/-- Any single buffer operation (push or pop) can only grow the seen set. -/
lemma seen_mono_op (H : Nat → Nat) (s : CDKGPendingMessages) (op : BufOp) :
    s.seenMessages ⊆ (applyBufOp H s op).seenMessages := by
  cases op with
  | pushMsg nodeId bytes =>
    show s.seenMessages ⊆ (PushPendingMessage H nodeId bytes s).seenMessages
    unfold PushPendingMessage
    dsimp only
    split_ifs
    · exact Finset.Subset.refl _
    · exact Finset.Subset.refl _
    · exact Finset.subset_insert _ _
  | popMsgs maxCount => exact Finset.Subset.refl _

/-- The seen set is monotone along any sequence of pushes and pops. -/
lemma seen_mono_ops (H : Nat → Nat) (ops : List BufOp) :
    ∀ (s : CDKGPendingMessages),
      s.seenMessages ⊆ (applyBufOps H ops s).seenMessages := by
  induction ops with
  | nil => intro s; exact Finset.Subset.refl _
  | cons op tl ih =>
    intro s
    exact (seen_mono_op H s op).trans (ih (applyBufOp H s op))

/-- C6 (buffer behaviour modelled from the spec; the member-function bodies
are absent from the given sources): after a message from a peer below its
cap is pushed, `HasSeen` holds for the digest of its bytes and keeps holding
across any further pushes and pops; `PopPendingMessages` returns the queue
prefix in FIFO order, keeps the seen set untouched, and decrements each
peer's counter by the number of its popped messages. -/
theorem pending_roundtrip (H : Nat → Nat) (st : CDKGPendingMessages)
    (nodeId bytes : Nat)
    (hadm : st.messagesPerNode nodeId < st.maxMessagesPerNode)
    (ops : List BufOp) (maxCount p : Nat) (st2 : CDKGPendingMessages) :
    HasSeen (PushPendingMessage H nodeId bytes st) (H bytes) = true ∧
    HasSeen (applyBufOps H ops (PushPendingMessage H nodeId bytes st)) (H bytes) = true ∧
    (PopPendingMessages maxCount st2).1 = st2.pendingMessages.take maxCount ∧
    (PopPendingMessages maxCount st2).2.seenMessages = st2.seenMessages ∧
    (PopPendingMessages maxCount st2).2.messagesPerNode p =
      st2.messagesPerNode p -
        ((st2.pendingMessages.take maxCount).map Prod.fst).count p := by
  have hseen : HasSeen (PushPendingMessage H nodeId bytes st) (H bytes) = true := by
    unfold PushPendingMessage HasSeen
    rw [if_neg (by omega : ¬ st.maxMessagesPerNode ≤ st.messagesPerNode nodeId)]
    dsimp only
    split_ifs with h2
    · exact decide_eq_true h2
    · exact decide_eq_true (Finset.mem_insert_self _ _)
  refine ⟨hseen, ?_, rfl, rfl, ?_⟩
  · have hsub := seen_mono_ops H ops (PushPendingMessage H nodeId bytes st)
    have hmem : H bytes ∈ (PushPendingMessage H nodeId bytes st).seenMessages :=
      of_decide_eq_true hseen
    exact decide_eq_true (hsub hmem)
  · show st2.messagesPerNode p -
        (st2.pendingMessages.take maxCount).countP (fun m => m.1 == p) = _
    rw [List.count, List.countP_map]
    rfl

/-- Witness for `pending_roundtrip`: one admitted push followed by another
push and a pop, on concrete buffers. -/
theorem pending_roundtrip_witness :
    HasSeen (PushPendingMessage hashBytes 5 9 (mkPendingMessages 2))
        (hashBytes 9) = true ∧
    HasSeen (applyBufOps hashBytes [BufOp.pushMsg 5 11, BufOp.popMsgs 1]
        (PushPendingMessage hashBytes 5 9 (mkPendingMessages 2)))
        (hashBytes 9) = true ∧
    (PopPendingMessages 1 (mkPendingMessages 3)).1 =
      (mkPendingMessages 3).pendingMessages.take 1 ∧
    (PopPendingMessages 1 (mkPendingMessages 3)).2.seenMessages =
      (mkPendingMessages 3).seenMessages ∧
    (PopPendingMessages 1 (mkPendingMessages 3)).2.messagesPerNode 5 =
      (mkPendingMessages 3).messagesPerNode 5 -
        (((mkPendingMessages 3).pendingMessages.take 1).map Prod.fst).count 5 :=
  pending_roundtrip hashBytes (mkPendingMessages 2) 5 9 (by decide)
    [BufOp.pushMsg 5 11, BufOp.popMsgs 1] 1 5 (mkPendingMessages 3)

/-- A successful association-list lookup is a membership. -/
lemma lookup_mem : ∀ (l : List (Nat × List Nat)) (k : Nat) (v : List Nat),
    l.lookup k = some v → (k, v) ∈ l := by
  intro l
  induction l with
  | nil => intro k v h; simp [List.lookup] at h
  | cons hd tl ih =>
    obtain ⟨k1, v1⟩ := hd
    intro k v h
    rw [List.lookup] at h
    by_cases hk : k == k1
    · rw [hk] at h
      simp only [Option.some.injEq] at h
      have hk2 : k = k1 := by simpa using hk
      exact List.mem_cons.mpr (Or.inl (by rw [hk2, ← h]))
    · rw [Bool.eq_false_iff.mpr hk] at h
      exact List.mem_cons.mpr (Or.inr (ih k v h))

/-- One call of `GetAllQuorumMembers` from a good cache returns the specified
member list and leaves the cache good. -/
lemma getAllQuorumMembers_good
    (getListForBlock : Nat → List Nat)
    (calculateQuorum : List Nat → Nat → Nat → List Nat)
    (serializeHashPair : Nat → Nat → Nat)
    (sizeForType : Nat → Nat)
    (maxCacheSize llmqType blockHash : Nat)
    (cache : Nat → List (Nat × List Nat))
    (hgood : goodCache getListForBlock calculateQuorum serializeHashPair sizeForType cache) :
    (GetAllQuorumMembers getListForBlock calculateQuorum serializeHashPair sizeForType
        maxCacheSize llmqType blockHash cache).1 =
      quorumMembersSpec getListForBlock calculateQuorum serializeHashPair sizeForType
        llmqType blockHash ∧
    goodCache getListForBlock calculateQuorum serializeHashPair sizeForType
      (GetAllQuorumMembers getListForBlock calculateQuorum serializeHashPair sizeForType
        maxCacheSize llmqType blockHash cache).2 := by
  unfold GetAllQuorumMembers
  cases hl : (cache llmqType).lookup blockHash with
  | some l =>
    exact ⟨hgood llmqType blockHash l (lookup_mem _ _ _ hl), hgood⟩
  | none =>
    refine ⟨rfl, ?_⟩
    intro t2 h2 l2 hm
    dsimp only at hm
    by_cases ht : t2 = llmqType
    · subst ht
      rw [if_pos rfl] at hm
      unfold lruInsert at hm
      rcases List.mem_cons.mp (List.take_subset _ _ hm) with h1 | h1
      · obtain ⟨hh, hv⟩ := Prod.mk.injEq .. ▸ h1
        rw [hv, hh]
        rfl
      · exact hgood t2 h2 l2 h1
    · rw [if_neg ht] at hm
      exact hgood t2 h2 l2 hm

/-- C4: for a fixed `(type, base block hash, registry snapshot)` the member
list `GetAllQuorumMembers` returns is always the one computed from the
snapshot, the type's size parameter and the modifier
`H(type ‖ base block hash)` — independent of the cache contents (any good
cache, in particular the initial empty one) — a repeated call through the
updated per-type cache returns the identical list, and the updated cache is
again good. -/
theorem members_deterministic
    (getListForBlock : Nat → List Nat)
    (calculateQuorum : List Nat → Nat → Nat → List Nat)
    (serializeHashPair : Nat → Nat → Nat)
    (sizeForType : Nat → Nat)
    (maxCacheSize llmqType blockHash : Nat)
    (cache : Nat → List (Nat × List Nat))
    (hgood : goodCache getListForBlock calculateQuorum serializeHashPair sizeForType cache) :
    (GetAllQuorumMembers getListForBlock calculateQuorum serializeHashPair sizeForType
        maxCacheSize llmqType blockHash cache).1 =
      quorumMembersSpec getListForBlock calculateQuorum serializeHashPair sizeForType
        llmqType blockHash ∧
    (GetAllQuorumMembers getListForBlock calculateQuorum serializeHashPair sizeForType
        maxCacheSize llmqType blockHash
        (GetAllQuorumMembers getListForBlock calculateQuorum serializeHashPair sizeForType
          maxCacheSize llmqType blockHash cache).2).1 =
      (GetAllQuorumMembers getListForBlock calculateQuorum serializeHashPair sizeForType
        maxCacheSize llmqType blockHash cache).1 ∧
    goodCache getListForBlock calculateQuorum serializeHashPair sizeForType
      (GetAllQuorumMembers getListForBlock calculateQuorum serializeHashPair sizeForType
        maxCacheSize llmqType blockHash cache).2 := by
  obtain ⟨h1, hg1⟩ := getAllQuorumMembers_good getListForBlock calculateQuorum
    serializeHashPair sizeForType maxCacheSize llmqType blockHash cache hgood
  obtain ⟨h2, -⟩ := getAllQuorumMembers_good getListForBlock calculateQuorum
    serializeHashPair sizeForType maxCacheSize llmqType blockHash _ hg1
  exact ⟨h1, h2.trans h1.symm, hg1⟩

/-- Witness for `members_deterministic`: a concrete three-member registry,
`calculateQuorum` truncating to the type's size, starting from the empty
cache. -/
theorem members_deterministic_witness :
    (GetAllQuorumMembers (fun _ => [1, 2, 3]) (fun l s _ => l.take s) (fun a b => a + b)
        (fun _ => 2) 3 1 5 (fun _ => [])).1 =
      quorumMembersSpec (fun _ => [1, 2, 3]) (fun l s _ => l.take s) (fun a b => a + b)
        (fun _ => 2) 1 5 ∧
    (GetAllQuorumMembers (fun _ => [1, 2, 3]) (fun l s _ => l.take s) (fun a b => a + b)
        (fun _ => 2) 3 1 5
        (GetAllQuorumMembers (fun _ => [1, 2, 3]) (fun l s _ => l.take s) (fun a b => a + b)
          (fun _ => 2) 3 1 5 (fun _ => [])).2).1 =
      (GetAllQuorumMembers (fun _ => [1, 2, 3]) (fun l s _ => l.take s) (fun a b => a + b)
        (fun _ => 2) 3 1 5 (fun _ => [])).1 ∧
    goodCache (fun _ => [1, 2, 3]) (fun l s _ => l.take s) (fun a b => a + b) (fun _ => 2)
      (GetAllQuorumMembers (fun _ => [1, 2, 3]) (fun l s _ => l.take s) (fun a b => a + b)
        (fun _ => 2) 3 1 5 (fun _ => [])).2 :=
  members_deterministic (fun _ => [1, 2, 3]) (fun l s _ => l.take s) (fun a b => a + b)
    (fun _ => 2) 3 1 5 (fun _ => [])
    (fun t h l hm => absurd hm (List.not_mem_nil _))

/-- The remaining-iteration count steps down by one when the loop state
advances. -/
lemma outCount_step (gm k : Nat) : outCount (gm / 2) (k + 1) = outCount gm k - 1 := by
  unfold outCount
  rw [Nat.log2_eq_log_two, Nat.log2_eq_log_two, Nat.log_div_base]
  omega

/-- When no iterations remain, the loop guard is false. -/
lemma outCount_zero_cond (gm k : Nat) (h : outCount gm k = 0) :
    ¬ (gm / 2 ≠ 0 ∨ k ≤ 1) := by
  unfold outCount at h
  rw [Nat.log2_eq_log_two] at h
  have h1 : Nat.log 2 gm = 0 := by omega
  have h2 : gm < 2 := by
    rcases Nat.log_eq_zero_iff.mp h1 with h3 | h3
    · exact h3
    · omega
  rintro (hc | hc)
  · exact hc (by omega)
  · omega

/-- When iterations remain, the loop guard holds. -/
lemma outCount_succ_cond (gm k t : Nat) (h : outCount gm k = t + 1) :
    gm / 2 ≠ 0 ∨ k ≤ 1 := by
  unfold outCount at h
  rw [Nat.log2_eq_log_two] at h
  by_cases hk : k ≤ 1
  · exact Or.inr hk
  · left
    have h1 : 1 ≤ Nat.log 2 gm := by omega
    have h2 : 2 ≤ gm := by
      by_contra hlt
      have h0 : Nat.log 2 gm = 0 := Nat.log_eq_zero_iff.mpr (Or.inl (by omega))
      omega
    omega

/-- Peeling one iteration off the closed-form contribution set. -/
lemma outSet_step (mns : List Nat) (i p gap gm k t : Nat) (ht : outCount gm k = t + 1) :
    outSet mns i p gap gm k =
      (if outElem mns i gap = p then (∅ : Finset Nat) else {outElem mns i gap}) ∪
        outSet mns i p (gap * 2) (gm / 2) (k + 1) := by
  unfold outSet
  rw [outCount_step, ht]
  ext x
  simp only [Finset.mem_union, Finset.mem_image, Finset.mem_filter, Finset.mem_range]
  constructor
  · rintro ⟨j, ⟨hj, hne⟩, rfl⟩
    cases j with
    | zero =>
      left
      rw [pow_zero, mul_one] at hne ⊢
      rw [if_neg hne]
      exact Finset.mem_singleton_self _
    | succ j2 =>
      right
      have harith : gap * 2 ^ (j2 + 1) = gap * 2 * 2 ^ j2 := by ring
      refine ⟨j2, ⟨by omega, ?_⟩, ?_⟩
      · rw [← harith]; exact hne
      · rw [← harith]
  · rintro (hx | ⟨j, ⟨hj, hne⟩, rfl⟩)
    · by_cases he : outElem mns i gap = p
      · rw [if_pos he] at hx
        exact absurd hx (Finset.not_mem_empty x)
      · rw [if_neg he] at hx
        rw [Finset.mem_singleton] at hx
        subst hx
        exact ⟨0, ⟨by omega, by rw [pow_zero, mul_one]; exact he⟩, by rw [pow_zero, mul_one]⟩
    · have harith : gap * 2 ^ (j + 1) = gap * 2 * 2 ^ j := by ring
      refine ⟨j + 1, ⟨by omega, ?_⟩, ?_⟩
      · rw [harith]; exact hne
      · rw [harith]

/-- Closed form of `calcOutboundLoop`: it adds to its accumulator exactly the
members at offsets `gap * 2 ^ j` over the remaining iterations, skipping the
member `p` itself. -/
lemma calcOutboundLoop_closed (mns : List Nat) (i p : Nat) :
    ∀ (t gm k gap : Nat) (r : Finset Nat), outCount gm k = t →
      calcOutboundLoop mns i p gap gm k r = r ∪ outSet mns i p gap gm k := by
  intro t
  induction t with
  | zero =>
    intro gm k gap r ht
    rw [calcOutboundLoop, dif_neg (outCount_zero_cond gm k ht)]
    unfold outSet
    rw [ht, Finset.range_zero, Finset.filter_empty, Finset.image_empty, Finset.union_empty]
  | succ t ih =>
    intro gm k gap r ht
    rw [calcOutboundLoop, dif_pos (outCount_succ_cond gm k t ht)]
    dsimp only
    rw [ih (gm / 2) (k + 1) (gap * 2) _ (by rw [outCount_step]; omega)]
    rw [outSet_step mns i p gap gm k t ht]
    have he2 : (mns.getD ((i + gap) % mns.length) 0 = p) ↔ (outElem mns i gap = p) :=
      Iff.rfl
    by_cases he : outElem mns i gap = p
    · rw [if_pos (he2.mpr he), if_pos he, Finset.empty_union]
    · rw [if_neg (fun hx => he (he2.mp hx)), if_neg he, ← Finset.insert_eq,
        Finset.union_insert, Finset.insert_union]
      rfl

/-- The ring-relay set of the member at index `i` in closed form. -/
lemma calcOutbound_closed (mns : List Nat) (i p : Nat) :
    calcOutbound mns i p = outSet mns i p 1 (mns.length - 1) 0 := by
  unfold calcOutbound
  rw [calcOutboundLoop_closed mns i p (outCount (mns.length - 1) 0) _ _ _ _ rfl,
    Finset.empty_union]

/-- The member `p` never appears in its own closed-form relay set. -/
lemma not_mem_outSet_self (mns : List Nat) (i p gap gm k : Nat) :
    p ∉ outSet mns i p gap gm k := by
  unfold outSet
  intro hmem
  rw [Finset.mem_image] at hmem
  obtain ⟨j, hj, hjp⟩ := hmem
  rw [Finset.mem_filter] at hj
  exact hj.2 hjp

/-- On a duplicate-free member list, the member at index `q` equals the
member at index `i` exactly when the indices coincide. -/
lemma getD_eq_iff (mns : List Nat) (i p q : Nat) (hnd : mns.Nodup)
    (hi : i < mns.length) (hp : mns.getD i 0 = p) (hq : q < mns.length) :
    mns.getD q 0 = p ↔ q = i := by
  rw [← hp, List.getD_eq_getElem mns 0 hq, List.getD_eq_getElem mns 0 hi]
  exact hnd.getElem_inj_iff

/-- Folding the relay-member accumulation over any index list touches the
accumulator only at occurrences of `i`. -/
lemma relay_foldl_single (C : Finset Nat) (i : Nat) :
    ∀ (l : List Nat) (acc : Finset Nat),
      l.foldl (fun acc2 j => if j = i then acc2 ∪ C else acc2) acc =
        if i ∈ l then acc ∪ C else acc := by
  intro l
  induction l with
  | nil => intro acc; simp
  | cons a tl ih =>
    intro acc
    rw [List.foldl_cons]
    by_cases ha : a = i
    · have hmem : i ∈ a :: tl := List.mem_cons.mpr (Or.inl ha.symm)
      rw [if_pos ha, ih, if_pos hmem]
      split_ifs with h2
      · rw [Finset.union_assoc, Finset.union_self]
      · rfl
    · rw [if_neg ha, ih]
      have hmemiff : i ∈ a :: tl ↔ i ∈ tl := by
        rw [List.mem_cons]
        constructor
        · rintro (h | h)
          · exact absurd h.symm ha
          · exact h
        · exact Or.inr
      exact (if_congr hmemiff rfl rfl).symm

/-- With `onlyOutbound = true` and a duplicate-free member list,
`GetQuorumRelayMembers` for the member at index `i` is exactly that member's
`calcOutbound` set. -/
lemma relay_eq_calcOutbound (mns : List Nat) (i p : Nat) (hnd : mns.Nodup)
    (hi : i < mns.length) (hp : mns.getD i 0 = p) :
    GetQuorumRelayMembers mns p true = calcOutbound mns i p := by
  unfold GetQuorumRelayMembers
  refine (List.foldl_ext _ (fun acc j => if j = i then acc ∪ calcOutbound mns i p else acc)
    ∅ ?_).trans ?_
  · intro acc j hj
    have hjlt : j < mns.length := List.mem_range.mp hj
    dsimp only
    by_cases hji : j = i
    · subst hji
      rw [if_pos hp, if_pos rfl, hp]
    · rw [if_neg (fun hx => hji ((getD_eq_iff mns i p j hnd hi hp hjlt).mp hx)),
        if_neg (by decide : ¬ (true = false)), if_neg hji]
  · rw [relay_foldl_single, if_pos (List.mem_range.mpr hi), Finset.empty_union]

/-- C3: for a duplicate-free member list of size `n ≥ 2` and a member at
index `i`, the relay set computed with `onlyOutbound = true` consists exactly
of the members at indices `(i + 2 ^ k) % n` for
`k = 0, 1, …, max 1 (⌊log₂ (n − 1)⌋ − 1)`, with any offset that maps back to
`i` skipped, and in particular never contains the member itself. -/
theorem ring_relay_spec (mns : List Nat) (i p : Nat)
    (hn : 2 ≤ mns.length) (hnd : mns.Nodup) (hi : i < mns.length)
    (hp : mns.getD i 0 = p) :
    GetQuorumRelayMembers mns p true =
      ((Finset.range (max 1 (Nat.log2 (mns.length - 1) - 1) + 1)).filter
          (fun k => (i + 2 ^ k) % mns.length ≠ i)).image
        (fun k => mns.getD ((i + 2 ^ k) % mns.length) 0) ∧
    p ∉ GetQuorumRelayMembers mns p true := by
  have hrel := relay_eq_calcOutbound mns i p hnd hi hp
  constructor
  · rw [hrel, calcOutbound_closed]
    unfold outSet outElem outCount
    have hcnt : max (Nat.log2 (mns.length - 1)) (2 - 0) =
        max 1 (Nat.log2 (mns.length - 1) - 1) + 1 := by omega
    rw [hcnt]
    simp only [one_mul]
    have hfc : (Finset.range (max 1 (Nat.log2 (mns.length - 1) - 1) + 1)).filter
        (fun j => mns.getD ((i + 2 ^ j) % mns.length) 0 ≠ p) =
        (Finset.range (max 1 (Nat.log2 (mns.length - 1) - 1) + 1)).filter
        (fun j => (i + 2 ^ j) % mns.length ≠ i) := by
      apply Finset.filter_congr
      intro j hj
      have hlt : (i + 2 ^ j) % mns.length < mns.length := Nat.mod_lt _ (by omega)
      exact not_congr (getD_eq_iff mns i p ((i + 2 ^ j) % mns.length) hnd hi hp hlt)
    rw [hfc]
  · rw [hrel, calcOutbound_closed]
    exact not_mem_outSet_self mns i p 1 (mns.length - 1) 0

/-- Witness for `ring_relay_spec`: the three-member list `[10, 20, 30]` at
index `0`. -/
theorem ring_relay_spec_witness :
    GetQuorumRelayMembers [10, 20, 30] 10 true =
      ((Finset.range (max 1 (Nat.log2 ([10, 20, 30].length - 1) - 1) + 1)).filter
          (fun k => (0 + 2 ^ k) % [10, 20, 30].length ≠ 0)).image
        (fun k => [10, 20, 30].getD ((0 + 2 ^ k) % [10, 20, 30].length) 0) ∧
    10 ∉ GetQuorumRelayMembers [10, 20, 30] 10 true :=
  ring_relay_spec [10, 20, 30] 0 10 (by decide) (by decide) (by decide) (by decide)

end llmq
